/-
Verification of the Butcher-tableau converter `butcher.py`: a shallow
embedding of its fraction parsing, shape validation, variadic gcd/lcm,
common-denominator scaling, triangular extraction, output formatting and
interactive retry loop, together with proofs about each component.

Python semantics used throughout: `//` on ints is flooring division
(`Int.fdiv`), `%` is flooring modulus (`Int.fmod`); division by zero
raises `ZeroDivisionError`, modelled by `Option`/`Except`.
-/
import Mathlib

namespace Butcher


/-- A parsed fraction, exactly as the source represents it: a pair
`(numerator, denominator)`, with no invariant enforced at parse time. -/
abbrev Frac := Int × Int

/-- Text is modelled as a list of characters. -/
abbrev Token := List Char

/-- Error text carried by a raised `ParseError`. -/
abbrev Msg := List Char

/-- Inner loop of the source's `gcd`: `while b != 0: a, b = b, a % b`.
Python's `%` on ints is flooring modulus, i.e. `Int.fmod`; the loop
terminates because the absolute value of the second component shrinks. -/
def euclid (a b : Int) : Int :=
  if h : b = 0 then a else euclid b (Int.fmod a b)
termination_by b.natAbs
decreasing_by
  have key : ∀ (x y : Int), y ≠ 0 → (Int.fmod x y).natAbs < y.natAbs := by
    intro x y hy
    cases x with
    | ofNat m =>
      cases y with
      | ofNat n =>
        have hn : n ≠ 0 := by simpa using hy
        have h0 : Int.fmod (Int.ofNat m) (Int.ofNat n) = Int.ofNat (m % n) := by
          cases m <;> rfl
        rw [h0]
        have h1 := Nat.mod_lt m (Nat.pos_of_ne_zero hn)
        simpa using h1
      | negSucc n =>
        cases m with
        | zero =>
          have h0 : Int.fmod (Int.ofNat 0) (Int.negSucc n) = 0 := rfl
          rw [h0]
          simp [Int.natAbs_negSucc]
        | succ m =>
          have h0 : Int.fmod (Int.ofNat (m + 1)) (Int.negSucc n) =
              Int.subNatNat (m % (n + 1)) n := rfl
          rw [h0, Int.subNatNat_eq_coe]
          have h1 : m % (n + 1) < n + 1 := Nat.mod_lt m (by omega)
          simp only [Int.natAbs_negSucc]
          omega
    | negSucc m =>
      cases y with
      | ofNat n =>
        have hn : n ≠ 0 := by simpa using hy
        have h0 : Int.fmod (Int.negSucc m) (Int.ofNat n) = Int.subNatNat n (m % n + 1) := rfl
        rw [h0, Int.subNatNat_eq_coe]
        have h1 : m % n < n := Nat.mod_lt m (Nat.pos_of_ne_zero hn)
        have h2 : (Int.ofNat n).natAbs = n := rfl
        omega
      | negSucc n =>
        have h0 : Int.fmod (Int.negSucc m) (Int.negSucc n) =
            -(((m + 1) % (n + 1) : Nat) : Int) := rfl
        rw [h0]
        have h1 : (m + 1) % (n + 1) < n + 1 := Nat.mod_lt (m + 1) (by omega)
        have h2 : (Int.negSucc n).natAbs = n + 1 := rfl
        omega
  exact key a b h

/-- Body of the accumulator loop in the source's `gcd` (after the first-iteration
initialisation): `b = abs(x); if a < b: a, b = x, a; while b != 0: a, b = b, a % b`.
Note the swap assigns the raw `x`, not `abs(x)`. -/
def gcdStep (a x : Int) : Int :=
  let b := |x|
  if a < b then euclid x a else euclid a b

def gcdAux (a : Int) : List Int → Int
  | [] => a
  | x :: xs => gcdAux (gcdStep a x) xs

/-- The source's variadic `gcd`: the first iteration sets the accumulator to
`abs(x)` before running the loop body. -/
def gcd (numbers : List Int) : Int :=
  match numbers with
  | [] => 1
  | x :: xs => gcdAux (gcdStep |x| x) xs

/-- One iteration of the source's `lcm` loop body:
`product = lcm * n; lcm = product // gcd(lcm, n)`.  Python's `//` is flooring
division (`Int.fdiv`) and raises `ZeroDivisionError` when `gcd(lcm, n) = 0`,
modelled by `none`. -/
def lcmStep (acc n : Int) : Option Int :=
  let g := gcd [acc, n]
  if g = 0 then none else some (Int.fdiv (acc * n) g)

def lcmAux (acc : Int) : List Int → Option Int
  | [] => some acc
  | n :: ns =>
    match lcmStep acc n with
    | some acc2 => lcmAux acc2 ns
    | none => none

/-- The source's variadic `lcm`: the first iteration initialises the accumulator
to the raw first argument and then runs the loop body on it. -/
def lcm (numbers : List Int) : Option Int :=
  match numbers with
  | [] => some 1
  | n :: ns =>
    match lcmStep n n with
    | some acc => lcmAux acc ns
    | none => none

/-- The source's `d(fraction) = fraction[1]`. -/
def d (fraction : Frac) : Int := fraction.2

/-- The source's `lowerLeft` generator: `i = 1; for row in matrix: yield row[0:i]; i += 1`. -/
def lowerLeftAux (i : Nat) : List (List Frac) → List (List Frac)
  | [] => []
  | row :: rest => row.take i :: lowerLeftAux (i + 1) rest

def lowerLeft (matrix : List (List Frac)) : List (List Frac) :=
  lowerLeftAux 1 matrix

/-- The order in which `itertools.chain(b, c, *A)` visits the tableau fractions
when the common denominator is computed. -/
def allFractions (A : List (List Frac)) (b c : List Frac) : List Frac :=
  b ++ c ++ A.flatten

def denominators (A : List (List Frac)) (b c : List Frac) : List Int :=
  (allFractions A b c).map d

/-- The source's `cd = lcm(*map(d, itertools.chain(b, c, *A)))`. -/
def commonDenominator (A : List (List Frac)) (b c : List Frac) : Option Int :=
  lcm (denominators A b c)

/-- The order in which the emission loop `itertools.chain(itertools.chain(*lowerLeft(A)), b, c)`
visits the fractions. -/
def tableauSequence (A : List (List Frac)) (b c : List Frac) : List Frac :=
  (lowerLeft A).flatten ++ b ++ c

/-- The scaled integer `n * (cd // d)` emitted for each fraction. -/
def scaledValue (cd : Int) (f : Frac) : Int := f.1 * Int.fdiv cd f.2

/-- The single output line built by the print loop: the first iteration uses
the `Butcher array = ` text, later iterations `, `. -/
def butcherLine (vals : List Int) : String :=
  (vals.foldl (fun (acc : String × String) v => (acc.1 ++ acc.2 ++ toString v, ", "))
    ("", "Butcher array = ")).1

/-- The two lines printed by the main program once the tableau is read:
the scaled coefficients and the divisor.  `none` models the uncaught
`ZeroDivisionError` from `lcm` on a zero denominator. -/
def outputLines (A : List (List Frac)) (b c : List Frac) : Option (List String) :=
  match commonDenominator A b c with
  | none => none
  | some cd =>
    some [butcherLine ((tableauSequence A b c).map (scaledValue cd)),
          "Divisor: " ++ toString cd]

/-- Python's `str.split(sep)` for a one-character separator: always returns at
least one (possibly empty) part. -/
def splitOnChar (sep : Char) : Token → List Token
  | [] => [[]]
  | c :: rest =>
    let r := splitOnChar sep rest
    if c = sep then [] :: r
    else
      match r with
      | t :: ts => (c :: t) :: ts
      | [] => [[c]]

/-- Value of a digit character, or `none` for a non-digit. -/
def decDigit (c : Char) : Option Nat :=
  if '0' ≤ c ∧ c ≤ '9' then some (c.toNat - '0'.toNat) else none

def digitsVal : List Char → Nat → Option Nat
  | [], acc => some acc
  | c :: cs, acc =>
    match decDigit c with
    | some v => digitsVal cs (10 * acc + v)
    | none => none

/-- A non-empty all-digit string read as a natural number. -/
def parseNat (cs : List Char) : Option Nat :=
  match cs with
  | [] => none
  | _ => digitsVal cs 0

/-- Core grammar of Python's `int(str)`: an optional sign followed by one or
more decimal digits (`int` additionally strips whitespace and allows digit
group underscores, which no tableau token uses). `none` models the raised
`ValueError`. -/
def parseInt (s : Token) : Option Int :=
  match s with
  | '-' :: rest => (parseNat rest).map (fun v => -(v : Int))
  | '+' :: rest => (parseNat rest).map (fun v => (v : Int))
  | _ => (parseNat s).map (fun v => (v : Int))

/-- The `ParseError` message raised by `parseFraction`:
`"Could not parse {f} as fraction!"`. -/
def fracMsg (f : Token) : Msg :=
  "Could not parse ".toList ++ f ++ " as fraction!".toList

/-- `tuple(map(int, f.split("/")))`, forcing every part. -/
def intParts : List Token → Option (List Int)
  | [] => some []
  | t :: ts =>
    match parseInt t, intParts ts with
    | some v, some vs => some (v :: vs)
    | _, _ => none

/-- The source's `parseFraction`: split on `/`, read every part as an integer,
accept one part as `(n, 1)` and two parts as `(n, d)`; everything else (and any
failing `int`) becomes a `ParseError` naming the token. -/
def parseFraction (f : Token) : Except Msg Frac :=
  match intParts (splitOnChar '/' f) with
  | some [v] => .ok (v, 1)
  | some [v, w] => .ok (v, w)
  | _ => .error (fracMsg f)

/-- `list(map(parseFraction, parts))`, forcing parts left to right so the first
failing token's `ParseError` is the one raised. -/
def fracList : List Token → Except Msg (List Frac)
  | [] => .ok []
  | t :: ts =>
    match parseFraction t with
    | .error e => .error e
    | .ok fr =>
      match fracList ts with
      | .error e => .error e
      | .ok frs => .ok (fr :: frs)

/-- The source's `parseMatrix`: `list(map(parseFraction, s.split(",")))`. -/
def parseMatrix (s : Token) : Except Msg (List Frac) :=
  fracList (splitOnChar ',' s)

def shapeMsgA (numStages : Nat) : Msg :=
  "The matrix A must have shape ".toList ++ (toString numStages).toList
    ++ "x".toList ++ (toString numStages).toList ++ "!".toList

def countMsgB (numStages : Nat) : Msg :=
  "There must be exactly ".toList ++ (toString numStages).toList
    ++ " coefficients b_j!".toList

def countMsgC (numStages : Nat) : Msg :=
  "There must be exactly ".toList ++ (toString numStages).toList
    ++ " coefficients c_j!".toList

/-- The row partition `[m[i : i + numStages] for i in range(0, len(m), numStages)]`.
Python's `range(0, len(m), 0)` raises and is unreachable from `parseA`, whose
success requires `len(m) = numStages * numStages ≥ 1`; step `0` is mapped to the
empty list here. -/
def chunkRows (numStages : Nat) (m : List Frac) : List (List Frac) :=
  (List.range' 0 ((m.length + numStages - 1) / numStages) numStages).map
    fun i => (m.drop i).take numStages

/-- The source's `parseA`: parse a flat fraction list, check the `stages*stages`
count, and partition it into rows. -/
def parseA (numStages : Nat) (s : Token) : Except Msg (List (List Frac)) :=
  match parseMatrix s with
  | .error e => .error e
  | .ok m =>
    if m.length ≠ numStages * numStages then .error (shapeMsgA numStages)
    else .ok (chunkRows numStages m)

/-- The source's `parseB`. -/
def parseB (numStages : Nat) (s : Token) : Except Msg (List Frac) :=
  match parseMatrix s with
  | .error e => .error e
  | .ok m =>
    if m.length ≠ numStages then .error (countMsgB numStages)
    else .ok m

/-- The source's `parseC`. -/
def parseC (numStages : Nat) (s : Token) : Except Msg (List Frac) :=
  match parseMatrix s with
  | .error e => .error e
  | .ok m =>
    if m.length ≠ numStages then .error (countMsgC numStages)
    else .ok m

/-- The exceptions a parser handed to `obtain` can raise: `ParseError` (the
only kind `obtain` catches) or Python's `ValueError` (raised by a bare `int`
on malformed text and left uncaught). -/
inductive PyErr where
  | parseError (msg : Msg)
  | valueError
deriving DecidableEq

/-- What the `obtain` prompt loop does with a (finite prefix of the) input
stream. -/
inductive ObtainOutcome (α : Type) where
  | success (v : α) (printed : List Msg) (rest : List Token)
  | awaiting (printed : List Msg)
  | crashed (printed : List Msg)

/-- The retry message printed by `obtain`:
`"Could not parse input: {msg} Try again:"`. -/
def retryMsg (m : Msg) : Msg :=
  "Could not parse input: ".toList ++ m ++ " Try again:".toList

/-- The source's `obtain(msg, p)`: keep reading lines; return the first value
`p` accepts; on a `ParseError` print the retry message and loop; any other
exception (e.g. `ValueError` from `int`) escapes and aborts the program.
Running out of the finite line list models a session still waiting at the
prompt. -/
def obtain (p : Token → Except PyErr α) : List Token → ObtainOutcome α
  | [] => .awaiting []
  | t :: ts =>
    match p t with
    | .ok v => .success v [] ts
    | .error (.parseError m) =>
      match obtain p ts with
      | .success v pr rest => .success v (retryMsg m :: pr) rest
      | .awaiting pr => .awaiting (retryMsg m :: pr)
      | .crashed pr => .crashed (retryMsg m :: pr)
    | .error .valueError => .crashed []

/-- The stage-count prompt hands the bare builtin `int` to `obtain`; its
failure is a `ValueError`, not a `ParseError`. -/
def pyInt (s : Token) : Except PyErr Int :=
  match parseInt s with
  | some v => .ok v
  | none => .error .valueError

/-- Wrapper giving a `ParseError`-only parser to `obtain`, as the
`parseA`/`parseB`/`parseC` lambdas in the main block do. -/
def liftParse (p : Token → Except Msg α) (t : Token) : Except PyErr α :=
  match p t with
  | .ok v => .ok v
  | .error m => .error (.parseError m)

/-- One step of the `while b != 0` loop, iterated explicitly so termination of
the loop is a statable fact: starting from `(a, b)`, stop once the second
component is `0`. -/
def euclidIter : Int → Int → Nat → Int × Int
  | a, b, 0 => (a, b)
  | a, b, k + 1 => if b = 0 then (a, b) else euclidIter b (Int.fmod a b) k

/-- The midpoint-method tableau of §8 of the specification. -/
def mpA : List (List Frac) := [[(0, 1), (0, 1)], [(1, 2), (0, 1)]]

def mpb : List Frac := [(0, 1), (1, 1)]

def mpc : List Frac := [(0, 1), (1, 2)]

/-- Bound used to justify termination of the Euclidean loop: the second
component strictly shrinks in absolute value at each iteration. -/
theorem natAbs_fmod_lt (a b : Int) (hb : b ≠ 0) : (Int.fmod a b).natAbs < b.natAbs := by
  match a, b with
  | Int.ofNat m, Int.ofNat n =>
    have hn : n ≠ 0 := by simpa using hb
    have h0 : Int.fmod (Int.ofNat m) (Int.ofNat n) = Int.ofNat (m % n) := by
      cases m <;> rfl
    rw [h0]
    have h1 := Nat.mod_lt m (Nat.pos_of_ne_zero hn)
    simpa using h1
  | Int.ofNat m, Int.negSucc n =>
    match m with
    | 0 =>
      have h0 : Int.fmod (Int.ofNat 0) (Int.negSucc n) = 0 := rfl
      rw [h0]
      simp [Int.natAbs_negSucc]
    | Nat.succ m =>
      have h0 : Int.fmod (Int.ofNat (m + 1)) (Int.negSucc n) = Int.subNatNat (m % (n + 1)) n :=
        rfl
      rw [h0, Int.subNatNat_eq_coe]
      have h1 : m % (n + 1) < n + 1 := Nat.mod_lt m (by omega)
      simp only [Int.natAbs_negSucc]
      omega
  | Int.negSucc m, Int.ofNat n =>
    have hn : n ≠ 0 := by simpa using hb
    have h0 : Int.fmod (Int.negSucc m) (Int.ofNat n) = Int.subNatNat n (m % n + 1) := rfl
    rw [h0, Int.subNatNat_eq_coe]
    have h1 : m % n < n := Nat.mod_lt m (Nat.pos_of_ne_zero hn)
    have h2 : (Int.ofNat n).natAbs = n := rfl
    omega
  | Int.negSucc m, Int.negSucc n =>
    have h0 : Int.fmod (Int.negSucc m) (Int.negSucc n) = -(((m + 1) % (n + 1) : Nat) : Int) :=
      rfl
    rw [h0]
    have h1 : (m + 1) % (n + 1) < n + 1 := Nat.mod_lt (m + 1) (by omega)
    have h2 : (Int.negSucc n).natAbs = n + 1 := rfl
    omega

theorem euclid_eq (a b : Int) :
    euclid a b = if b = 0 then a else euclid b (Int.fmod a b) := by
  rw [euclid]
  split <;> rfl

theorem euclid_zero (a : Int) : euclid a 0 = a := by
  rw [euclid_eq]; rfl

/-- The Euclidean recurrence for `Int.gcd`. -/
theorem gcd_int_emod (a b : Int) : Int.gcd b (a % b) = Int.gcd a b := by
  apply Nat.dvd_antisymm
  · have h1 : (↑(Int.gcd b (a % b)) : Int) ∣ b := Int.gcd_dvd_left
    have h2 : (↑(Int.gcd b (a % b)) : Int) ∣ a % b := Int.gcd_dvd_right
    have h3 : (↑(Int.gcd b (a % b)) : Int) ∣ a := by
      have h4 := Int.emod_add_ediv a b
      calc (↑(Int.gcd b (a % b)) : Int)
          ∣ a % b + b * (a / b) := Dvd.dvd.add h2 (Dvd.dvd.mul_right h1 _)
        _ = a := h4
    exact Int.natCast_dvd_natCast.mp (Int.dvd_gcd h3 h1)
  · have h1 : (↑(Int.gcd a b) : Int) ∣ a := Int.gcd_dvd_left
    have h2 : (↑(Int.gcd a b) : Int) ∣ b := Int.gcd_dvd_right
    have h3 : (↑(Int.gcd a b) : Int) ∣ a % b := by
      have h4 := Int.emod_def a b
      rw [h4]
      exact Int.dvd_sub h1 (Dvd.dvd.mul_right h2 _)
    exact Int.natCast_dvd_natCast.mp (Int.dvd_gcd h2 h3)

/-- On a positive second argument, the loop computes the (nonnegative) gcd. -/
theorem euclid_pos : ∀ (k : Nat) (a b : Int), b.natAbs = k → 0 < b →
    euclid a b = ↑(Int.gcd a b) := by
  intro k
  induction k using Nat.strong_induction_on with
  | _ k ih =>
    intro a b hk hb
    have hb0 : b ≠ 0 := by omega
    rw [euclid_eq, if_neg hb0]
    have hfm : Int.fmod a b = a % b := Int.fmod_eq_emod a (by omega)
    rw [hfm]
    by_cases hr : a % b = 0
    · rw [hr, euclid_zero]
      have hdvd : b ∣ a := Int.dvd_of_emod_eq_zero hr
      rw [Int.gcd_eq_right hdvd]
      omega
    · have hrpos : 0 < a % b := by
        have := Int.emod_nonneg a hb0
        omega
      have hlt : (a % b).natAbs < k := by
        have := Int.emod_lt_of_pos a hb
        omega
      rw [ih _ hlt b (a % b) rfl hrpos, gcd_int_emod]

theorem euclid_abs_self (a : Int) : euclid |a| |a| = |a| := by
  by_cases h : a = 0
  · subst h; simpa using euclid_zero 0
  · rw [euclid_eq, if_neg (by simpa using h), Int.fmod_self, euclid_zero]

theorem gcdStep_abs_self (a : Int) : gcdStep |a| a = |a| := by
  unfold gcdStep
  rw [if_neg (lt_irrefl |a|)]
  exact euclid_abs_self a

/-- Closed form of the loop body on a nonnegative accumulator. -/
theorem gcdStep_abs (a b : Int) : gcdStep |a| b = if a = 0 then b else ↑(Int.gcd a b) := by
  unfold gcdStep
  by_cases hswap : |a| < |b|
  · rw [if_pos hswap]
    by_cases ha : a = 0
    · subst ha
      simp [euclid_zero]
    · have hapos : 0 < |a| := abs_pos.mpr ha
      rw [euclid_pos |a|.natAbs b |a| rfl hapos, if_neg ha]
      congr 1
      rw [Int.gcd_comm]
      unfold Int.gcd
      rw [Int.natAbs_abs]
  · rw [if_neg hswap]
    by_cases hb : b = 0
    · subst hb
      simp only [abs_zero, euclid_zero, if_neg, Int.gcd_zero_right]
      by_cases ha : a = 0
      · simp [ha]
      · rw [if_neg ha, Int.abs_eq_natAbs]
    · have hbpos : 0 < |b| := abs_pos.mpr hb
      rw [euclid_pos |b|.natAbs |a| |b| rfl hbpos]
      have ha : a ≠ 0 := by
        intro h0
        subst h0
        simp at hswap
        omega
      rw [if_neg ha]
      congr 1
      unfold Int.gcd
      rw [Int.natAbs_abs, Int.natAbs_abs]

/-- Closed form of the source's two-argument `gcd`. -/
theorem gcd_pair (a b : Int) : gcd [a, b] = if a = 0 then b else ↑(Int.gcd a b) := by
  show gcdAux (gcdStep |a| a) [b] = _
  rw [gcdStep_abs_self]
  show gcdAux (gcdStep |a| b) [] = _
  show gcdStep |a| b = _
  exact gcdStep_abs a b

theorem gcd_single (x : Int) : gcd [x] = |x| := by
  show gcdAux (gcdStep |x| x) [] = _
  rw [gcdStep_abs_self]
  rfl

/-- Associativity of the source's two-argument `gcd` under nesting; this holds
for all integers, even though commutativity fails. -/
theorem gcd_pair_assoc (a b c : Int) :
    gcd [gcd [a, b], c] = gcd [a, gcd [b, c]] := by
  by_cases ha : a = 0
  · subst ha
    rw [gcd_pair 0 b, if_pos rfl, gcd_pair 0 (gcd [b, c]), if_pos rfl]
  · by_cases hb : b = 0
    · subst hb
      rw [gcd_pair a 0, if_neg ha, gcd_pair 0 c, if_pos rfl]
      have hga : (↑(Int.gcd a 0) : Int) ≠ 0 := by
        rw [Int.gcd_zero_right]
        simpa using ha
      rw [gcd_pair _ c, if_neg hga, gcd_pair a c, if_neg ha]
      congr 1
      rw [Int.gcd_zero_right]
      show Nat.gcd (Int.natAbs ↑a.natAbs) c.natAbs = Nat.gcd a.natAbs c.natAbs
      rw [Int.natAbs_ofNat]
    · have hgab : Int.gcd a b ≠ 0 := fun h => ha (Int.gcd_eq_zero_iff.mp h).1
      have hgab2 : (↑(Int.gcd a b) : Int) ≠ 0 := by exact_mod_cast hgab
      rw [gcd_pair a b, if_neg ha, gcd_pair b c, if_neg hb,
          gcd_pair _ c, if_neg hgab2, gcd_pair a _, if_neg ha]
      congr 1
      exact Int.gcd_assoc a b c

theorem lcmStep_eq (acc n : Int) (hacc : acc ≠ 0) :
    lcmStep acc n = if (Int.gcd acc n : Int) = 0 then none
      else some (Int.fdiv (acc * n) ↑(Int.gcd acc n)) := by
  unfold lcmStep
  rw [gcd_pair, if_neg hacc]

/-- Invariant of the `lcm` accumulation loop on a non-zero accumulator:
the loop succeeds, its result is non-zero, is a multiple of the accumulator
and of every remaining argument, and is positive whenever everything fed in
is positive. -/
theorem lcmAux_spec : ∀ (ns : List Int) (acc : Int), acc ≠ 0 → (∀ n ∈ ns, n ≠ 0) →
    ∃ m, lcmAux acc ns = some m ∧ m ≠ 0 ∧ acc ∣ m ∧ (∀ n ∈ ns, n ∣ m) ∧
      (0 < acc → (∀ n ∈ ns, 0 < n) → 0 < m) := by
  intro ns
  induction ns with
  | nil =>
    intro acc hacc _
    exact ⟨acc, rfl, hacc, dvd_refl acc, by simp, fun h _ => h⟩
  | cons n ns ih =>
    intro acc hacc hall
    have hn : n ≠ 0 := hall n (List.mem_cons_self n ns)
    have hns : ∀ x ∈ ns, x ≠ 0 := fun x hx => hall x (List.mem_cons_of_mem n hx)
    have hg0 : Int.gcd acc n ≠ 0 := fun h => hacc (Int.gcd_eq_zero_iff.mp h).1
    set g : Int := ↑(Int.gcd acc n) with hgdef
    have hgz : g ≠ 0 := by
      rw [hgdef]
      exact_mod_cast hg0
    obtain ⟨a2, ha2⟩ : g ∣ acc := Int.gcd_dvd_left
    obtain ⟨n2, hn2⟩ : g ∣ n := Int.gcd_dvd_right
    have hstep : lcmStep acc n = some (a2 * n) := by
      rw [lcmStep_eq acc n hacc, ← hgdef, if_neg hgz]
      congr 1
      rw [ha2, mul_assoc]
      exact Int.mul_fdiv_cancel_left _ hgz
    have ha2nz : a2 ≠ 0 := by
      intro h0
      apply hacc
      rw [ha2, h0, mul_zero]
    have hk : a2 * n ≠ 0 := mul_ne_zero ha2nz hn
    obtain ⟨m, hm, hmnz, hdvd1, hdvd2, hpos⟩ := ih (a2 * n) hk hns
    refine ⟨m, ?_, hmnz, ?_, ?_, ?_⟩
    · show (match lcmStep acc n with
        | some acc2 => lcmAux acc2 ns
        | none => none) = some m
      rw [hstep]
      exact hm
    · calc acc ∣ a2 * n := ⟨n2, by rw [ha2, hn2]; ring⟩
        _ ∣ m := hdvd1
    · intro x hx
      rcases List.mem_cons.mp hx with h | h
      · subst h
        exact dvd_trans (dvd_mul_left x a2) hdvd1
      · exact hdvd2 x h
    · intro haccpos hallpos
      have hnpos : 0 < n := hallpos n (List.mem_cons_self n ns)
      have hknz : 0 < a2 * n := by
        have hgpos : (0 : Int) < g := by
          rw [hgdef]
          exact_mod_cast Nat.pos_of_ne_zero hg0
        have hprodpos : 0 < g * (a2 * n) := by
          have h1 := mul_pos haccpos hnpos
          rw [ha2, mul_assoc] at h1
          exact h1
        nlinarith [hgpos, hprodpos]
      exact hpos hknz fun x hx => hallpos x (List.mem_cons_of_mem n hx)

/-- Overall specification of the source's `lcm` on lists of non-zero integers. -/
theorem lcm_spec (L : List Int) (hL : ∀ x ∈ L, x ≠ 0) :
    ∃ m, lcm L = some m ∧ m ≠ 0 ∧ (∀ x ∈ L, x ∣ m) ∧
      ((∀ x ∈ L, 0 < x) → 0 < m) := by
  match L with
  | [] => exact ⟨1, rfl, one_ne_zero, by simp, fun _ => one_pos⟩
  | n :: ns =>
    have hn : n ≠ 0 := hL n (List.mem_cons_self n ns)
    have hstep : lcmStep n n = some |n| := by
      rw [lcmStep_eq n n hn]
      have hg : Int.gcd n n = n.natAbs := Int.gcd_self n
      rw [hg]
      have hnz : (↑n.natAbs : Int) ≠ 0 := by
        simpa using hn
      rw [if_neg hnz]
      congr 1
      have hprod : n * n = (↑n.natAbs : Int) * |n| := by
        rw [← Int.abs_eq_natAbs, abs_mul_abs_self]
      rw [hprod, Int.mul_fdiv_cancel_left _ hnz]
    have habs : |n| ≠ 0 := by simpa using hn
    obtain ⟨m, hm, hmnz, hdvd1, hdvd2, hpos⟩ :=
      lcmAux_spec ns |n| habs (fun x hx => hL x (List.mem_cons_of_mem n hx))
    refine ⟨m, ?_, hmnz, ?_, ?_⟩
    · show (match lcmStep n n with
        | some acc => lcmAux acc ns
        | none => none) = some m
      rw [hstep]
      exact hm
    · intro x hx
      rcases List.mem_cons.mp hx with h | h
      · subst h
        exact (abs_dvd x m).mp hdvd1
      · exact hdvd2 x h
    · intro hallpos
      have : 0 < |n| := abs_pos.mpr hn
      exact hpos this fun x hx => hallpos x (List.mem_cons_of_mem n hx)

/-- First iteration of `lcm` on a non-zero argument: `n * n // gcd(n, n) = abs(n)`. -/
theorem lcmStep_self (x : Int) (hx : x ≠ 0) : lcmStep x x = some |x| := by
  rw [lcmStep_eq x x hx, Int.gcd_self x]
  have hnz : (↑x.natAbs : Int) ≠ 0 := by simpa using hx
  rw [if_neg hnz]
  congr 1
  have hprod : x * x = (↑x.natAbs : Int) * |x| := by
    rw [← Int.abs_eq_natAbs, abs_mul_abs_self]
  rw [hprod, Int.mul_fdiv_cancel_left _ hnz]

theorem lcmStep_eval {acc n q : Int} {g : Nat} (hacc : acc ≠ 0)
    (hg : Int.gcd acc n = g) (hgnz : g ≠ 0) (hq : Int.fdiv (acc * n) ↑g = q) :
    lcmStep acc n = some q := by
  rw [lcmStep_eq acc n hacc, hg, if_neg (by exact_mod_cast hgnz), hq]

theorem lcmAux_cons (acc n acc2 : Int) (ns : List Int) (h : lcmStep acc n = some acc2) :
    lcmAux acc (n :: ns) = lcmAux acc2 ns := by
  show (match lcmStep acc n with
    | some a2 => lcmAux a2 ns
    | none => none) = _
  rw [h]

theorem lcm_cons (n acc : Int) (ns : List Int) (h : lcmStep n n = some acc) :
    lcm (n :: ns) = lcmAux acc ns := by
  show (match lcmStep n n with
    | some a2 => lcmAux a2 ns
    | none => none) = _
  rw [h]

theorem lcmStep_s11 : lcmStep 1 1 = some 1 :=
  lcmStep_eval one_ne_zero (by norm_num) one_ne_zero (by decide)

theorem lcmStep_s12 : lcmStep 1 2 = some 2 :=
  lcmStep_eval one_ne_zero (by norm_num) one_ne_zero (by decide)

theorem lcmStep_s21 : lcmStep 2 1 = some 2 :=
  lcmStep_eval two_ne_zero (by norm_num) one_ne_zero (by decide)

theorem lcmStep_s22 : lcmStep 2 2 = some 2 :=
  lcmStep_eval two_ne_zero (by norm_num) two_ne_zero (by decide)

/-- Common denominator of the midpoint-method tableau. -/
theorem lcm_midpoint : lcm [1, 1, 1, 2, 1, 1, 2, 1] = some 2 := by
  rw [lcm_cons 1 1 _ lcmStep_s11,
      lcmAux_cons 1 1 1 _ lcmStep_s11,
      lcmAux_cons 1 1 1 _ lcmStep_s11,
      lcmAux_cons 1 2 2 _ lcmStep_s12,
      lcmAux_cons 2 1 2 _ lcmStep_s21,
      lcmAux_cons 2 1 2 _ lcmStep_s21,
      lcmAux_cons 2 2 2 _ lcmStep_s22,
      lcmAux_cons 2 1 2 _ lcmStep_s21]
  rfl

theorem lcmStep_s1neg2 : lcmStep 1 (-2) = some (-2) :=
  lcmStep_eval one_ne_zero (by norm_num) one_ne_zero (by decide)

theorem lcmStep_s2neg3 : lcmStep 2 (-3) = some (-6) :=
  lcmStep_eval two_ne_zero (by norm_num) one_ne_zero (by decide)

/-- A negative denominator flips the sign of the accumulated `lcm`. -/
theorem lcm_neg_example : lcm [1, 1, -2] = some (-2) := by
  rw [lcm_cons 1 1 _ lcmStep_s11,
      lcmAux_cons 1 1 1 _ lcmStep_s11,
      lcmAux_cons 1 (-2) (-2) _ lcmStep_s1neg2]
  rfl

theorem lcm_two_negthree : lcm [2, -3] = some (-6) := by
  rw [lcm_cons 2 2 _ lcmStep_s22, lcmAux_cons 2 (-3) (-6) _ lcmStep_s2neg3]
  rfl

theorem lcmStep_s00 : lcmStep 0 0 = none := by
  unfold lcmStep
  rw [gcd_pair]
  simp

/-- `lcm(0)` divides by `gcd(0, 0) = 0`: the Python call raises
`ZeroDivisionError`. -/
theorem lcm_zero_arg : lcm [0] = none := by
  show (match lcmStep 0 0 with
    | some a2 => lcmAux a2 []
    | none => none) = none
  rw [lcmStep_s00]

theorem gcd_zero_negfour : gcd [0, -4] = -4 := by rw [gcd_pair]; norm_num

theorem gcd_negfour_zero : gcd [-4, 0] = 4 := by rw [gcd_pair]; norm_num

theorem gcd_two_negthree : gcd [2, -3] = 1 := by rw [gcd_pair]; norm_num

theorem lowerLeftAux_length (i : Nat) (A : List (List Frac)) :
    (lowerLeftAux i A).length = A.length := by
  induction A generalizing i with
  | nil => rfl
  | cons row rest ih =>
    show (row.take i :: lowerLeftAux (i + 1) rest).length = _
    simp [ih]

theorem lowerLeftAux_get (A : List (List Frac)) :
    ∀ (i j : Nat) (hj : j < A.length),
    (lowerLeftAux i A).get ⟨j, by rw [lowerLeftAux_length]; exact hj⟩ =
      (A.get ⟨j, hj⟩).take (i + j) := by
  induction A with
  | nil => intro i j hj; cases hj
  | cons row rest ih =>
    intro i j hj
    cases j with
    | zero => rfl
    | succ j =>
      have hj2 : j < rest.length := by simpa using hj
      have := ih (i + 1) j hj2
      show (lowerLeftAux (i + 1) rest).get ⟨j, _⟩ = _
      rw [this]
      congr 1
      omega

theorem lowerLeftAux_getElem (A : List (List Frac)) :
    ∀ (i j : Nat), (lowerLeftAux i A)[j]? = (A[j]?).map (fun r => r.take (i + j)) := by
  induction A with
  | nil => intro i j; rfl
  | cons row rest ih =>
    intro i j
    cases j with
    | zero =>
      show ((row.take i :: lowerLeftAux (i + 1) rest))[0]? = _
      simp
    | succ j =>
      show ((row.take i :: lowerLeftAux (i + 1) rest))[j + 1]? = _
      rw [List.getElem?_cons_succ, List.getElem?_cons_succ, ih (i + 1) j]
      congr 1
      funext r
      congr 1
      omega

theorem lowerLeftAux_flatten_length (s : Nat) (A : List (List Frac)) :
    ∀ (k : Nat), (∀ r ∈ A, r.length = s) → k + A.length ≤ s + 1 →
    2 * (lowerLeftAux k A).flatten.length + A.length = A.length * (2 * k + A.length) := by
  induction A with
  | nil => intro k _ _; simp [lowerLeftAux]
  | cons row rest ih =>
    intro k hrows hk
    simp only [List.length_cons] at hk
    have hrow : row.length = s := hrows row (List.mem_cons_self row rest)
    have htake : (row.take k).length = k := by
      rw [List.length_take, hrow]
      omega
    have hrest := ih (k + 1) (fun r hr => hrows r (List.mem_cons_of_mem row hr))
      (by omega)
    show 2 * (row.take k :: lowerLeftAux (k + 1) rest).flatten.length + _ = _
    rw [List.flatten_cons, List.length_append, htake]
    simp only [List.length_cons]
    zify at hrest ⊢
    linear_combination hrest

theorem splitOnChar_ne_nil (sep : Char) (s : Token) : splitOnChar sep s ≠ [] := by
  induction s with
  | nil => simp [splitOnChar]
  | cons c rest ih =>
    show (if c = sep then [] :: splitOnChar sep rest
      else match splitOnChar sep rest with
        | t :: ts => (c :: t) :: ts
        | [] => [[c]]) ≠ []
    by_cases hc : c = sep
    · simp [hc]
    · rw [if_neg hc]
      match h : splitOnChar sep rest with
      | [] => simp
      | t :: ts => simp

theorem splitOnChar_not_mem (sep : Char) (s : Token) (h : sep ∉ s) :
    splitOnChar sep s = [s] := by
  induction s with
  | nil => rfl
  | cons c rest ih =>
    have hc : ¬(c = sep) := fun h2 => h (h2 ▸ List.mem_cons_self c rest)
    have hrest : sep ∉ rest := fun h2 => h (List.mem_cons_of_mem c h2)
    show (if c = sep then [] :: splitOnChar sep rest
      else match splitOnChar sep rest with
        | t :: ts => (c :: t) :: ts
        | [] => [[c]]) = [c :: rest]
    rw [if_neg hc, ih hrest]

theorem splitOnChar_append (sep : Char) (s2 : Token) :
    ∀ (s1 : Token), sep ∉ s1 →
    splitOnChar sep (s1 ++ sep :: s2) = s1 :: splitOnChar sep s2 := by
  intro s1
  induction s1 with
  | nil =>
    intro _
    show (if sep = sep then [] :: splitOnChar sep s2
      else match splitOnChar sep s2 with
        | t :: ts => (sep :: t) :: ts
        | [] => [[sep]]) = [] :: splitOnChar sep s2
    rw [if_pos rfl]
  | cons c rest ih =>
    intro h
    have hc : ¬(c = sep) := fun h2 => h (h2 ▸ List.mem_cons_self c rest)
    have hrest : sep ∉ rest := fun h2 => h (List.mem_cons_of_mem c h2)
    show (if c = sep then [] :: splitOnChar sep (rest ++ sep :: s2)
      else match splitOnChar sep (rest ++ sep :: s2) with
        | t :: ts => (c :: t) :: ts
        | [] => [[c]]) = (c :: rest) :: splitOnChar sep s2
    rw [if_neg hc, ih hrest]

theorem splitOnChar_length (sep : Char) (s : Token) :
    (splitOnChar sep s).length = s.count sep + 1 := by
  induction s with
  | nil => rfl
  | cons c rest ih =>
    show List.length (if c = sep then [] :: splitOnChar sep rest
      else match splitOnChar sep rest with
        | t :: ts => (c :: t) :: ts
        | [] => [[c]]) = _
    by_cases hc : c = sep
    · rw [if_pos hc, List.count_cons]
      simp [hc, ih]
    · rw [if_neg hc, List.count_cons]
      have hne := splitOnChar_ne_nil sep rest
      match h : splitOnChar sep rest with
      | [] => exact absurd h hne
      | t :: ts =>
        rw [h] at ih
        simp only [List.length_cons] at ih ⊢
        have : (c == sep) = false := by simpa using hc
        simp [this, ih]

theorem intParts_some (ts : List Token) (h : ∀ t ∈ ts, ∃ v, parseInt t = some v) :
    ∃ vs, intParts ts = some vs ∧ vs.length = ts.length := by
  induction ts with
  | nil => exact ⟨[], rfl, rfl⟩
  | cons t ts ih =>
    obtain ⟨v, hv⟩ := h t (List.mem_cons_self t ts)
    obtain ⟨vs, hvs, hlen⟩ := ih (fun x hx => h x (List.mem_cons_of_mem t hx))
    refine ⟨v :: vs, ?_, by simp [hlen]⟩
    show (match parseInt t, intParts ts with
      | some v, some vs => some (v :: vs)
      | _, _ => none) = some (v :: vs)
    rw [hv, hvs]

theorem intParts_none (ts : List Token) (t : Token) (ht : t ∈ ts)
    (h : parseInt t = none) : intParts ts = none := by
  induction ts with
  | nil => cases ht
  | cons x xs ih =>
    show (match parseInt x, intParts xs with
      | some v, some vs => some (v :: vs)
      | _, _ => none) = none
    rcases List.mem_cons.mp ht with h1 | h1
    · subst h1
      rw [h]
    · rw [ih h1]
      match parseInt x with
      | some _ => rfl
      | none => rfl

theorem intParts_length : ∀ (ts : List Token) (vs : List Int),
    intParts ts = some vs → vs.length = ts.length := by
  intro ts
  induction ts with
  | nil => intro vs h; cases h; rfl
  | cons t ts ih =>
    intro vs h
    revert h
    show (match parseInt t, intParts ts with
      | some v, some vs => some (v :: vs)
      | _, _ => none) = some vs → _
    match parseInt t, hrec : intParts ts with
    | some v, some ws =>
      intro h
      cases h
      simp [ih ws hrec]
    | some v, none => intro h; cases h
    | none, some ws => intro h; cases h
    | none, none => intro h; cases h

theorem fracList_ok (ts : List Token) (h : ∀ t ∈ ts, ∃ fr, parseFraction t = .ok fr) :
    ∃ l, fracList ts = .ok l ∧ l.length = ts.length := by
  induction ts with
  | nil => exact ⟨[], rfl, rfl⟩
  | cons t ts ih =>
    obtain ⟨fr, hfr⟩ := h t (List.mem_cons_self t ts)
    obtain ⟨l, hl, hlen⟩ := ih (fun x hx => h x (List.mem_cons_of_mem t hx))
    refine ⟨fr :: l, ?_, by simp [hlen]⟩
    show (match parseFraction t with
      | .error e => .error e
      | .ok fr =>
        match fracList ts with
        | .error e => .error e
        | .ok frs => .ok (fr :: frs)) = Except.ok (fr :: l)
    rw [hfr, hl]

theorem fracList_length : ∀ (ts : List Token) (l : List Frac),
    fracList ts = .ok l → l.length = ts.length := by
  intro ts
  induction ts with
  | nil => intro l h; cases h; rfl
  | cons t ts ih =>
    intro l h
    revert h
    show (match parseFraction t with
      | .error e => .error e
      | .ok fr =>
        match fracList ts with
        | .error e => .error e
        | .ok frs => .ok (fr :: frs)) = Except.ok l → _
    match parseFraction t, hrec : fracList ts with
    | .ok fr, .ok frs =>
      intro h
      cases h
      simp [ih frs hrec]
    | .ok fr, .error e => intro h; cases h
    | .error e, _ => intro h; cases h

theorem chunks_core (s : Nat) :
    ∀ (k : Nat) (m : List Frac), m.length = k * s →
    (((List.range' 0 k s).map fun i => (m.drop i).take s).flatten = m ∧
     ∀ r ∈ (List.range' 0 k s).map fun i => (m.drop i).take s, r.length = s) := by
  intro k
  induction k with
  | zero =>
    intro m hm
    have hnil : m = [] := List.eq_nil_of_length_eq_zero (by simpa using hm)
    subst hnil
    simp
  | succ k ih =>
    intro m hm
    have hms : (k + 1) * s = k * s + s := by ring
    rw [hms] at hm
    rw [List.range'_succ]
    have hshift : (List.range' (0 + s) k s).map (fun i => (m.drop i).take s)
        = (List.range' 0 k s).map (fun i => ((m.drop s).drop i).take s) := by
      have h0 : (0 : Nat) + s = s + 0 := by omega
      rw [h0, ← List.map_add_range' s 0 k s, List.map_map]
      apply List.map_congr_left
      intro i _
      show ((m.drop (s + i)).take s) = (((m.drop s).drop i).take s)
      rw [List.drop_drop]
    have hlen : (m.drop s).length = k * s := by
      rw [List.length_drop, hm]
      omega
    obtain ⟨hflat, hrows⟩ := ih (m.drop s) hlen
    simp only [List.map_cons, List.flatten_cons, hshift]
    constructor
    · rw [hflat, List.drop_zero, List.take_append_drop]
    · intro r hr
      rcases List.mem_cons.mp hr with h1 | h1
      · subst h1
        rw [List.drop_zero, List.length_take, hm]
        omega
      · exact hrows r h1

theorem chunkRows_spec (s : Nat) (hs : 0 < s) (m : List Frac) (hm : m.length = s * s) :
    (chunkRows s m).length = s ∧ (chunkRows s m).flatten = m ∧
      ∀ r ∈ chunkRows s m, r.length = s := by
  have hcount : (m.length + s - 1) / s = s := by
    rw [hm]
    have h1 : s * s + s - 1 = (s - 1) + s * s := by omega
    rw [h1, Nat.add_mul_div_left (s - 1) s hs, Nat.div_eq_of_lt (by omega)]
    omega
  unfold chunkRows
  rw [hcount]
  obtain ⟨hflat, hrows⟩ := chunks_core s s m (by rw [hm])
  exact ⟨by simp, hflat, hrows⟩

theorem parseA_ok_eq (s : Nat) (text : Token) (l : List Frac)
    (hok : parseMatrix text = .ok l) (hsz : l.length = s * s) :
    parseA s text = .ok (chunkRows s l) := by
  unfold parseA
  rw [hok]
  show (if l.length ≠ s * s then Except.error (shapeMsgA s)
    else Except.ok (chunkRows s l)) = _
  rw [if_neg (fun h => h hsz)]

theorem parseA_err_eq (s : Nat) (text : Token) (l : List Frac)
    (hok : parseMatrix text = .ok l) (hsz : l.length ≠ s * s) :
    parseA s text = .error (shapeMsgA s) := by
  unfold parseA
  rw [hok]
  show (if l.length ≠ s * s then Except.error (shapeMsgA s)
    else Except.ok (chunkRows s l)) = _
  rw [if_pos hsz]

theorem parseB_eq (s : Nat) (text : Token) (l : List Frac)
    (hok : parseMatrix text = .ok l) :
    parseB s text = if l.length ≠ s then .error (countMsgB s) else .ok l := by
  unfold parseB
  rw [hok]

theorem parseC_eq (s : Nat) (text : Token) (l : List Frac)
    (hok : parseMatrix text = .ok l) :
    parseC s text = if l.length ≠ s then .error (countMsgC s) else .ok l := by
  unfold parseC
  rw [hok]

/-- A parser that raises only `ParseError` can never make `obtain` abort. -/
theorem obtain_no_crash {α : Type} (p : Token → Except PyErr α)
    (hp : ∀ t, p t ≠ .error .valueError) :
    ∀ (lines : List Token) (pr : List Msg), obtain p lines ≠ .crashed pr := by
  intro lines
  induction lines with
  | nil => intro pr h; cases h
  | cons t ts ih =>
    intro pr h
    revert h
    show (match p t with
      | .ok v => ObtainOutcome.success v [] ts
      | .error (.parseError m) =>
        match obtain p ts with
        | .success v pr2 rest => .success v (retryMsg m :: pr2) rest
        | .awaiting pr2 => .awaiting (retryMsg m :: pr2)
        | .crashed pr2 => .crashed (retryMsg m :: pr2)
      | .error .valueError => .crashed []) ≠ ObtainOutcome.crashed pr
    match hpt : p t with
    | .ok v => intro h; cases h
    | .error .valueError => exact absurd hpt (hp t)
    | .error (.parseError m) =>
      match hrec : obtain p ts with
      | .success v pr2 rest => intro h; cases h
      | .awaiting pr2 => intro h; cases h
      | .crashed pr2 => exact absurd hrec (fun h2 => ih pr2 h2)

/-- When every offered line fails with a `ParseError`, `obtain` prints one
retry message (carrying the error's text) per line and is still waiting at
the prompt. -/
theorem obtain_all_fail {α : Type} (p : Token → Except PyErr α) (msgOf : Token → Msg) :
    ∀ (lines : List Token), (∀ t ∈ lines, p t = .error (.parseError (msgOf t))) →
    obtain p lines = .awaiting (lines.map fun t => retryMsg (msgOf t)) := by
  intro lines
  induction lines with
  | nil => intro _; rfl
  | cons t ts ih =>
    intro h
    have ht := h t (List.mem_cons_self t ts)
    have hts := ih (fun x hx => h x (List.mem_cons_of_mem t hx))
    show (match p t with
      | .ok v => ObtainOutcome.success v [] ts
      | .error (.parseError m) =>
        match obtain p ts with
        | .success v pr2 rest => .success v (retryMsg m :: pr2) rest
        | .awaiting pr2 => .awaiting (retryMsg m :: pr2)
        | .crashed pr2 => .crashed (retryMsg m :: pr2)
      | .error .valueError => .crashed []) = _
    rw [ht, hts]
    rfl

/-- The first accepted line is returned, with the rest of the stream unread. -/
theorem obtain_success {α : Type} (p : Token → Except PyErr α) (t : Token)
    (ts : List Token) (v : α) (h : p t = .ok v) :
    obtain p (t :: ts) = .success v [] ts := by
  show (match p t with
    | .ok v => ObtainOutcome.success v [] ts
    | .error (.parseError m) =>
      match obtain p ts with
      | .success v pr2 rest => .success v (retryMsg m :: pr2) rest
      | .awaiting pr2 => .awaiting (retryMsg m :: pr2)
      | .crashed pr2 => .crashed (retryMsg m :: pr2)
    | .error .valueError => .crashed []) = _
  rw [h]

/-- The Euclidean loop always reaches `b = 0`, and `euclid` returns the first
component at that point. -/
theorem euclid_terminates : ∀ (k : Nat) (a b : Int), b.natAbs = k →
    ∃ steps, (euclidIter a b steps).2 = 0 ∧ euclid a b = (euclidIter a b steps).1 := by
  intro k
  induction k using Nat.strong_induction_on with
  | _ k ih =>
    intro a b hk
    by_cases hb : b = 0
    · exact ⟨0, hb, by rw [euclid_eq, if_pos hb]; rfl⟩
    · have hlt : (Int.fmod a b).natAbs < k := hk ▸ natAbs_fmod_lt a b hb
      obtain ⟨steps, h1, h2⟩ := ih _ hlt b (Int.fmod a b) rfl
      refine ⟨steps + 1, ?_, ?_⟩
      · show (if b = 0 then (a, b) else euclidIter b (Int.fmod a b) steps).2 = 0
        rw [if_neg hb]
        exact h1
      · rw [euclid_eq, if_neg hb, h2]
        show _ = (if b = 0 then (a, b) else euclidIter b (Int.fmod a b) steps).1
        rw [if_neg hb]

theorem mp_cd : commonDenominator mpA mpb mpc = some 2 := by
  have hden : denominators mpA mpb mpc = [1, 1, 1, 2, 1, 1, 2, 1] := rfl
  show lcm (denominators mpA mpb mpc) = some 2
  rw [hden, lcm_midpoint]

/-- Claim C1: for a tableau with non-zero denominators and `cd` the lcm of all
denominators of `A`, `b`, `c`, every fraction `(n, d)` satisfies `cd % d == 0`
and the scaled integer `n * (cd // d)` divided by `cd` is exactly `n / d`
in `ℚ`. -/
theorem C1_exact_scaling (A : List (List Frac)) (b c : List Frac)
    (h : ∀ f ∈ allFractions A b c, f.2 ≠ 0) :
    ∃ cd, commonDenominator A b c = some cd ∧
      ∀ f ∈ allFractions A b c,
        Int.fmod cd f.2 = 0 ∧
        ((scaledValue cd f : Int) : ℚ) / (cd : ℚ) = (f.1 : ℚ) / (f.2 : ℚ) := by
  have hd : ∀ x ∈ denominators A b c, x ≠ 0 := by
    intro x hx
    obtain ⟨f, hf, hfx⟩ := List.mem_map.mp hx
    exact hfx ▸ h f hf
  obtain ⟨cd, hcd, hcdnz, hdvd, _⟩ := lcm_spec (denominators A b c) hd
  refine ⟨cd, hcd, ?_⟩
  intro f hf
  have hfd : f.2 ∣ cd := hdvd f.2 (List.mem_map.mpr ⟨f, hf, rfl⟩)
  have hf2 : f.2 ≠ 0 := h f hf
  obtain ⟨q, hq⟩ := hfd
  have hqnz : q ≠ 0 := by
    intro h0
    rw [h0, mul_zero] at hq
    exact hcdnz hq
  have hfdiv : Int.fdiv cd f.2 = q := by
    rw [hq]
    exact Int.mul_fdiv_cancel_left q hf2
  constructor
  · rw [hq]
    exact Int.mul_fmod_right f.2 q
  · show ((f.1 * Int.fdiv cd f.2 : Int) : ℚ) / (cd : ℚ) = _
    rw [hfdiv, hq]
    have hq2 : ((q : Int) : ℚ) ≠ 0 := Int.cast_ne_zero.mpr hqnz
    have hf2q : ((f.2 : Int) : ℚ) ≠ 0 := Int.cast_ne_zero.mpr hf2
    push_cast
    field_simp
    ring

/-- Claim C1 witness: the midpoint tableau has non-zero denominators and the
claim theorem instantiates on it. -/
theorem C1_exact_scaling_witness :
    (∀ f ∈ allFractions mpA mpb mpc, f.2 ≠ 0) ∧
    (∃ cd, commonDenominator mpA mpb mpc = some cd ∧
      ∀ f ∈ allFractions mpA mpb mpc,
        Int.fmod cd f.2 = 0 ∧
        ((scaledValue cd f : Int) : ℚ) / (cd : ℚ) = (f.1 : ℚ) / (f.2 : ℚ)) :=
  ⟨by decide, C1_exact_scaling mpA mpb mpc (by decide)⟩

/-- Claim C2 counterexample: on the midpoint input the program does not print
the six-value line claimed in the specification scenario; row 2 contributes
its first two entries, so seven values are printed. -/
theorem C2_counterexample :
    outputLines mpA mpb mpc ≠
      some ["Butcher array = 0, 1, 0, 2, 0, 1", "Divisor: 2"] := by
  unfold outputLines
  rw [mp_cd]
  decide

/-- Claim C2 (amended): for the midpoint input the program computes `cd = 2`
and emits `Butcher array = 0, 1, 0, 0, 2, 0, 1` followed by `Divisor: 2`
(row 2 contributes both of its leading entries, `1` and `0`). -/
theorem C2_midpoint_output :
    commonDenominator mpA mpb mpc = some 2 ∧
    outputLines mpA mpb mpc =
      some ["Butcher array = 0, 1, 0, 0, 2, 0, 1", "Divisor: 2"] := by
  refine ⟨mp_cd, ?_⟩
  unfold outputLines
  rw [mp_cd]
  decide

/-- Claim C3 counterexample: at `(2, -3)` the product `lcm(a, b) * gcd(a, b)`
is `-6`, not `abs(a * b) = 6`. -/
theorem C3_counterexample :
    lcm [2, -3] = some (-6) ∧ gcd [2, -3] = 1 ∧
    (-6 : Int) * 1 ≠ |(2 : Int) * (-3)| := by
  exact ⟨lcm_two_negthree, gcd_two_negthree, by decide⟩

/-- Claim C3 (amended): `lcm()` is `1`; `lcm(x)` is `abs(x)` for non-zero `x`
(while `lcm(0)` raises `ZeroDivisionError`); and for non-zero `a`, `b` the
exact identity is `lcm(a, b) * gcd(a, b) = abs(a) * b`, which carries the sign
of `b` rather than being `abs(a * b)`. -/
theorem C3_lcm_identities :
    lcm [] = some 1 ∧
    (∀ x : Int, x ≠ 0 → lcm [x] = some |x|) ∧
    lcm [0] = none ∧
    (∀ a b : Int, a ≠ 0 → b ≠ 0 →
      ∃ l, lcm [a, b] = some l ∧ l * gcd [a, b] = |a| * b) := by
  refine ⟨rfl, ?_, lcm_zero_arg, ?_⟩
  · intro x hx
    rw [lcm_cons x |x| [] (lcmStep_self x hx)]
    rfl
  · intro a b ha hb
    have hg0 : Int.gcd a b ≠ 0 := fun h => ha (Int.gcd_eq_zero_iff.mp h).1
    have hgz : (↑(Int.gcd a b) : Int) ≠ 0 := by exact_mod_cast hg0
    have habsgcd : Int.gcd |a| b = Int.gcd a b := by
      unfold Int.gcd
      rw [Int.natAbs_abs]
    obtain ⟨a2, ha2⟩ : (↑(Int.gcd a b) : Int) ∣ |a| :=
      (dvd_abs _ a).mpr Int.gcd_dvd_left
    have habs : |a| ≠ 0 := by simpa using ha
    have hstep : lcmStep |a| b = some (a2 * b) := by
      rw [lcmStep_eq |a| b habs, habsgcd, if_neg hgz]
      congr 1
      rw [ha2, mul_assoc]
      exact Int.mul_fdiv_cancel_left _ hgz
    refine ⟨a2 * b, ?_, ?_⟩
    · rw [lcm_cons a |a| [b] (lcmStep_self a ha), lcmAux_cons |a| b (a2 * b) [] hstep]
      rfl
    · rw [gcd_pair a b, if_neg ha, ha2]
      ring

/-- Claim C3 witness: the amended identity instantiated at `(2, -3)` and the
single-argument case at `-5`. -/
theorem C3_lcm_identities_witness :
    ((-5 : Int) ≠ 0 ∧ lcm [(-5 : Int)] = some 5) ∧
    ((2 : Int) ≠ 0 ∧ (-3 : Int) ≠ 0 ∧
      ∃ l, lcm [2, -3] = some l ∧ l * gcd [2, -3] = |(2 : Int)| * (-3)) := by
  refine ⟨⟨by decide, ?_⟩, by decide, by decide, C3_lcm_identities.2.2.2 2 (-3) (by decide) (by decide)⟩
  have h := C3_lcm_identities.2.1 (-5) (by decide)
  simpa using h

/-- Claim C4 counterexample: `gcd(0, -4) = -4` but `gcd(-4, 0) = 4`, so the
variadic `gcd` is not commutative over its argument multiset. -/
theorem C4_counterexample :
    gcd [0, -4] = -4 ∧ gcd [-4, 0] = 4 ∧ (-4 : Int) ≠ 4 :=
  ⟨gcd_zero_negfour, gcd_negfour_zero, by decide⟩

/-- Claim C4 (amended): `gcd()` is `1` and `gcd(x) = abs(x)`; two-argument
`gcd` is commutative provided both arguments are non-zero (when exactly one
argument is zero and the other negative, the raw sign leaks through the
swap `a, b = x, a`), and the nested two-argument form is associative for all
integers. -/
theorem C4_gcd_identities :
    gcd [] = 1 ∧
    (∀ x : Int, gcd [x] = |x|) ∧
    (∀ a b : Int, a ≠ 0 → b ≠ 0 → gcd [a, b] = gcd [b, a]) ∧
    (∀ a b c : Int, gcd [gcd [a, b], c] = gcd [a, gcd [b, c]]) := by
  refine ⟨rfl, gcd_single, ?_, gcd_pair_assoc⟩
  intro a b ha hb
  rw [gcd_pair a b, if_neg ha, gcd_pair b a, if_neg hb, Int.gcd_comm]

/-- Claim C4 witness: the amended commutativity applied at `(6, -4)`. -/
theorem C4_gcd_identities_witness :
    gcd [(7 : Int)] = 7 ∧ ((6 : Int) ≠ 0 ∧ (-4 : Int) ≠ 0 ∧ gcd [6, -4] = gcd [-4, 6]) := by
  refine ⟨?_, by decide, by decide, C4_gcd_identities.2.2.1 6 (-4) (by decide) (by decide)⟩
  have h := C4_gcd_identities.2.1 7
  simpa using h

/-- Claim C5 counterexample: a tableau whose denominators are all non-zero but
where one is negative gets the negative common denominator `-2`, refuting that
`cd` is always positive. -/
theorem C5_counterexample :
    (∀ f ∈ allFractions [[((1 : Int), (-2 : Int))]] [(1, 1)] [(1, 1)], f.2 ≠ 0) ∧
    commonDenominator [[((1 : Int), (-2 : Int))]] [(1, 1)] [(1, 1)] = some (-2) ∧
    ¬(0 < (-2 : Int)) := by
  refine ⟨by decide, ?_, by decide⟩
  have hden : denominators [[((1 : Int), (-2 : Int))]] [(1, 1)] [(1, 1)] = [1, 1, -2] := rfl
  show lcm (denominators [[((1 : Int), (-2 : Int))]] [(1, 1)] [(1, 1)]) = some (-2)
  rw [hden, lcm_neg_example]

/-- Claim C5 (amended): for a tableau whose denominators are all positive, the
derived common denominator is a positive integer; with merely non-zero
denominators it is only guaranteed non-zero. -/
theorem C5_cd_positive (A : List (List Frac)) (b c : List Frac)
    (h : ∀ f ∈ allFractions A b c, 0 < f.2) :
    ∃ cd, commonDenominator A b c = some cd ∧ 0 < cd := by
  have hd : ∀ x ∈ denominators A b c, x ≠ 0 := by
    intro x hx
    obtain ⟨f, hf, hfx⟩ := List.mem_map.mp hx
    exact hfx ▸ ne_of_gt (h f hf)
  obtain ⟨cd, hcd, _, _, hpos⟩ := lcm_spec (denominators A b c) hd
  refine ⟨cd, hcd, hpos ?_⟩
  intro x hx
  obtain ⟨f, hf, hfx⟩ := List.mem_map.mp hx
  exact hfx ▸ h f hf

/-- Claim C5 witness: the midpoint tableau has positive denominators and a
positive common denominator. -/
theorem C5_cd_positive_witness :
    (∀ f ∈ allFractions mpA mpb mpc, 0 < f.2) ∧
    (∃ cd, commonDenominator mpA mpb mpc = some cd ∧ 0 < cd) :=
  ⟨by decide, C5_cd_positive mpA mpb mpc (by decide)⟩

/-- Claim C6: for an `s`-stage matrix (s rows of s fractions), the extraction
returns, per row index `j` (0-based), the first `j+1` entries of row `j`;
the extracted entries number `s*(s+1)/2`; and the emitted sequence is those
entries followed by all of `b` and then all of `c`. -/
theorem C6_triangular_extraction (s : Nat) (A : List (List Frac)) (b c : List Frac)
    (hA : A.length = s) (hrows : ∀ r ∈ A, r.length = s) :
    (lowerLeft A).length = s ∧
    (∀ j : Nat, (lowerLeft A)[j]? = (A[j]?).map (fun r => r.take (j + 1))) ∧
    (lowerLeft A).flatten.length = s * (s + 1) / 2 ∧
    tableauSequence A b c = (lowerLeft A).flatten ++ b ++ c := by
  refine ⟨by rw [lowerLeft, lowerLeftAux_length, hA], ?_, ?_, rfl⟩
  · intro j
    rw [lowerLeft, lowerLeftAux_getElem A 1 j]
    congr 1
    funext r
    congr 1
    omega
  · have h1 := lowerLeftAux_flatten_length s A 1 hrows (by omega)
    rw [hA] at h1
    have h2 : s * (2 * 1 + s) = s * (s + 1) + s := by ring
    rw [h2] at h1
    have h3 : 2 * (lowerLeftAux 1 A).flatten.length = s * (s + 1) := by omega
    show (lowerLeftAux 1 A).flatten.length = s * (s + 1) / 2
    omega

/-- Claim C6 witness: the extraction shape on the concrete midpoint tableau. -/
theorem C6_triangular_extraction_witness :
    (mpA.length = 2 ∧ (∀ r ∈ mpA, r.length = 2)) ∧
    ((lowerLeft mpA).length = 2 ∧
      (∀ j : Nat, (lowerLeft mpA)[j]? = (mpA[j]?).map (fun r => r.take (j + 1))) ∧
      (lowerLeft mpA).flatten.length = 2 * (2 + 1) / 2 ∧
      tableauSequence mpA mpb mpc = (lowerLeft mpA).flatten ++ mpb ++ mpc) :=
  ⟨⟨by decide, by decide⟩,
    C6_triangular_extraction 2 mpA mpb mpc (by decide) (by decide)⟩

/-- Claim C7 counterexample: `parseA(1, "x")` raises a `ParseError` although
the comma-separated token count is exactly `1 * 1`, so "raises exactly when
the count differs" is false as stated. -/
theorem C7_counterexample :
    parseA 1 ['x'] = .error (fracMsg ['x']) ∧
    (splitOnChar ',' ['x']).length = 1 * 1 := by
  constructor
  · rfl
  · rfl

/-- Claim C7 (amended): on text whose comma-separated tokens all parse as
fractions (`parseMatrix` succeeds with list `l`), `parseA` fails exactly when
the token count differs from `stages*stages` and otherwise partitions the
fractions row-major into `stages` rows of `stages` columns; `parseB`/`parseC`
fail exactly when the count differs from `stages` and otherwise return the
parsed sequence unchanged.  (A malformed token additionally raises `ParseError`
even when the count matches.) -/
theorem C7_shape_validation (s : Nat) (text : Token) (l : List Frac)
    (hok : parseMatrix text = .ok l) :
    ((∃ e, parseA s text = .error e) ↔ (splitOnChar ',' text).length ≠ s * s) ∧
    ((splitOnChar ',' text).length = s * s →
      parseA s text = .ok (chunkRows s l) ∧ (chunkRows s l).length = s ∧
      (chunkRows s l).flatten = l ∧ ∀ r ∈ chunkRows s l, r.length = s) ∧
    ((∃ e, parseB s text = .error e) ↔ (splitOnChar ',' text).length ≠ s) ∧
    ((splitOnChar ',' text).length = s → parseB s text = .ok l) ∧
    ((∃ e, parseC s text = .error e) ↔ (splitOnChar ',' text).length ≠ s) ∧
    ((splitOnChar ',' text).length = s → parseC s text = .ok l) := by
  have hlen : l.length = (splitOnChar ',' text).length := fracList_length _ l hok
  have hpos : 1 ≤ l.length := by
    rw [hlen, splitOnChar_length]
    omega
  rw [← hlen]
  refine ⟨?_, ?_, ?_, ?_, ?_, ?_⟩
  · constructor
    · rintro ⟨e, he⟩ hsz
      rw [parseA_ok_eq s text l hok hsz] at he
      cases he
    · intro hsz
      exact ⟨shapeMsgA s, parseA_err_eq s text l hok hsz⟩
  · intro hsz
    have hs : 0 < s := by
      rcases Nat.eq_zero_or_pos s with h0 | h0
      · subst h0
        omega
      · exact h0
    obtain ⟨hlen2, hflat, hrows⟩ := chunkRows_spec s hs l hsz
    exact ⟨parseA_ok_eq s text l hok hsz, hlen2, hflat, hrows⟩
  · rw [parseB_eq s text l hok]
    constructor
    · rintro ⟨e, he⟩ hsz
      rw [if_neg (fun h => h hsz)] at he
      cases he
    · intro hsz
      exact ⟨countMsgB s, by rw [if_pos hsz]⟩
  · intro hsz
    rw [parseB_eq s text l hok, if_neg (fun h => h hsz)]
  · rw [parseC_eq s text l hok]
    constructor
    · rintro ⟨e, he⟩ hsz
      rw [if_neg (fun h => h hsz)] at he
      cases he
    · intro hsz
      exact ⟨countMsgC s, by rw [if_pos hsz]⟩
  · intro hsz
    rw [parseC_eq s text l hok, if_neg (fun h => h hsz)]

/-- Claim C7 witness: the midpoint matrix text `0,0,1/2,0` at `stages = 2`. -/
theorem C7_shape_validation_witness :
    (parseMatrix "0,0,1/2,0".toList = .ok [(0, 1), (0, 1), (1, 2), (0, 1)]) ∧
    ((splitOnChar ',' "0,0,1/2,0".toList).length = 2 * 2 →
      parseA 2 "0,0,1/2,0".toList =
        .ok (chunkRows 2 [(0, 1), (0, 1), (1, 2), (0, 1)]) ∧
      (chunkRows 2 [((0 : Int), (1 : Int)), (0, 1), (1, 2), (0, 1)]).length = 2 ∧
      (chunkRows 2 [((0 : Int), (1 : Int)), (0, 1), (1, 2), (0, 1)]).flatten =
        [(0, 1), (0, 1), (1, 2), (0, 1)] ∧
      ∀ r ∈ chunkRows 2 [((0 : Int), (1 : Int)), (0, 1), (1, 2), (0, 1)], r.length = 2) :=
  ⟨rfl,
    (C7_shape_validation 2 "0,0,1/2,0".toList [(0, 1), (0, 1), (1, 2), (0, 1)]
      rfl).2.1⟩

/-- Claim C8: the fraction parser splits on `/`; with no slash and an integer
token it returns `(n, 1)`; with one slash and two integer parts it returns the
pair; with two or more slashes, or any part that is not an integer, it raises a
`ParseError` whose message contains the offending token; and `1/0` is accepted
with denominator zero. -/
theorem C8_parse_fraction_contract :
    (∀ (f : Token) (v : Int), '/' ∉ f → parseInt f = some v →
      parseFraction f = .ok (v, 1)) ∧
    (∀ (f1 f2 : Token) (v w : Int), '/' ∉ f1 → '/' ∉ f2 →
      parseInt f1 = some v → parseInt f2 = some w →
      parseFraction (f1 ++ '/' :: f2) = .ok (v, w)) ∧
    (∀ f : Token, 2 ≤ f.count '/' → parseFraction f = .error (fracMsg f)) ∧
    (∀ f t : Token, t ∈ splitOnChar '/' f → parseInt t = none →
      parseFraction f = .error (fracMsg f)) ∧
    (∀ f : Token, ∃ pre post, fracMsg f = pre ++ f ++ post) ∧
    parseFraction ['1', '/', '0'] = .ok (1, 0) := by
  refine ⟨?_, ?_, ?_, ?_, ?_, rfl⟩
  · intro f v hnos hv
    unfold parseFraction
    rw [splitOnChar_not_mem '/' f hnos]
    have h2 : intParts [f] = some [v] := by
      show (match parseInt f, intParts [] with
        | some v, some vs => some (v :: vs)
        | _, _ => none) = some [v]
      rw [hv]
      rfl
    rw [h2]
  · intro f1 f2 v w h1 h2 hv hw
    unfold parseFraction
    rw [splitOnChar_append '/' f2 f1 h1, splitOnChar_not_mem '/' f2 h2]
    have h3 : intParts [f1, f2] = some [v, w] := by
      show (match parseInt f1, intParts [f2] with
        | some v, some vs => some (v :: vs)
        | _, _ => none) = some [v, w]
      have h4 : intParts [f2] = some [w] := by
        show (match parseInt f2, intParts [] with
          | some v, some vs => some (v :: vs)
          | _, _ => none) = some [w]
        rw [hw]
        rfl
      rw [hv, h4]
    rw [h3]
  · intro f hcount
    unfold parseFraction
    match h : intParts (splitOnChar '/' f) with
    | none => rfl
    | some vs =>
      have hvs : vs.length = (splitOnChar '/' f).length := intParts_length _ _ h
      rw [splitOnChar_length] at hvs
      match vs, hvs with
      | [], hvs => simp at hvs
      | [v], hvs => simp at hvs; omega
      | [v, w], hvs => simp at hvs; omega
      | v :: w :: u :: rest, _ => rfl
  · intro f t ht hnone
    unfold parseFraction
    rw [intParts_none (splitOnChar '/' f) t ht hnone]
  · intro f
    exact ⟨"Could not parse ".toList, " as fraction!".toList, rfl⟩

/-- Claim C8 witness: the parser contract instantiated on the concrete tokens
`42`, `1/2`, `1/2/3` and `a`. -/
theorem C8_parse_fraction_contract_witness :
    (('/' ∉ ['4', '2']) ∧ parseInt ['4', '2'] = some 42 ∧
      parseFraction ['4', '2'] = .ok (42, 1)) ∧
    (parseFraction (['1'] ++ '/' :: ['2']) = .ok (1, 2)) ∧
    ((2 : Nat) ≤ List.count '/' ['1', '/', '2', '/', '3'] ∧
      parseFraction ['1', '/', '2', '/', '3'] =
        .error (fracMsg ['1', '/', '2', '/', '3'])) ∧
    (parseInt ['a'] = none ∧ parseFraction ['a'] = .error (fracMsg ['a'])) := by
  refine ⟨⟨by decide, by decide, ?_⟩, ?_, ⟨by decide, ?_⟩, ⟨by decide, ?_⟩⟩
  · exact C8_parse_fraction_contract.1 ['4', '2'] 42 (by decide) (by decide)
  · exact C8_parse_fraction_contract.2.1 ['1'] ['2'] 1 2 (by decide) (by decide) (by decide)
      (by decide)
  · exact C8_parse_fraction_contract.2.2.1 ['1', '/', '2', '/', '3'] (by decide)
  · exact C8_parse_fraction_contract.2.2.2.1 ['a'] ['a'] (by decide) (by decide)

/-- Claim C9 counterexample: the stage-count prompt hands the bare builtin
`int` to `obtain`; on the non-integer line `x` that raises `ValueError`, which
`obtain` does not catch, so the session aborts instead of retrying. -/
theorem C9_counterexample :
    obtain pyInt [['x']] = .crashed [] ∧ parseInt ['x'] = none := ⟨rfl, rfl⟩

/-- Claim C9 (amended): for the matrix and vector prompts — any parser that
fails only with `ParseError`, as the `parseA`/`parseB`/`parseC` lambdas do —
the driver retries indefinitely on invalid input: it never aborts on any finite
input sequence, each failing line prints a retry message carrying the parse
error's text and the session re-prompts, and the first accepted line is
returned; a parse or shape failure therefore never escapes the prompt.  At the
stage-count prompt, however, the parser is the bare `int`, whose `ValueError`
is not caught and aborts the session. -/
theorem C9_retry_loop {α : Type} (p : Token → Except Msg α) :
    (∀ (lines : List Token) (pr : List Msg), obtain (liftParse p) lines ≠ .crashed pr) ∧
    (∀ (lines : List Token) (msgOf : Token → Msg),
      (∀ t ∈ lines, p t = .error (msgOf t)) →
      obtain (liftParse p) lines = .awaiting (lines.map fun t => retryMsg (msgOf t))) ∧
    (∀ (t : Token) (ts : List Token) (v : α), p t = .ok v →
      obtain (liftParse p) (t :: ts) = .success v [] ts) := by
  have hnv : ∀ t, liftParse p t ≠ .error .valueError := by
    intro t
    unfold liftParse
    match p t with
    | .ok v => intro h2; cases h2
    | .error m => intro h2; cases h2
  refine ⟨fun lines => obtain_no_crash (liftParse p) hnv lines, ?_, ?_⟩
  · intro lines msgOf h
    apply obtain_all_fail
    intro t ht
    unfold liftParse
    rw [h t ht]
  · intro t ts v h
    apply obtain_success
    unfold liftParse
    rw [h]

/-- Claim C9 witness: the vector-b prompt at `stages = 2` retries on the
malformed line `x` (printing the fraction error's message) and accepts `0,1`. -/
theorem C9_retry_loop_witness :
    (obtain (liftParse (parseB 2)) [['x'], ['y']] ≠ .crashed []) ∧
    ((∀ t ∈ [['x']], parseB 2 t = .error (fracMsg ['x'])) ∧
      obtain (liftParse (parseB 2)) [['x']] =
        .awaiting ([['x']].map fun _ => retryMsg (fracMsg ['x']))) ∧
    (parseB 2 "0,1".toList = .ok [(0, 1), (1, 1)] ∧
      obtain (liftParse (parseB 2)) ["0,1".toList] =
        .success [((0 : Int), (1 : Int)), (1, 1)] [] []) := by
  refine ⟨(C9_retry_loop (parseB 2)).1 [['x'], ['y']] [], ⟨?_, ?_⟩, ⟨rfl, ?_⟩⟩
  · intro t ht
    rcases List.mem_cons.mp ht with h1 | h1
    · subst h1; rfl
    · cases h1
  · exact (C9_retry_loop (parseB 2)).2.1 [['x']] (fun _ => fracMsg ['x'])
      (by intro t ht
          rcases List.mem_cons.mp ht with h1 | h1
          · subst h1; rfl
          · cases h1)
  · exact (C9_retry_loop (parseB 2)).2.2 "0,1".toList [] [((0 : Int), (1 : Int)), (1, 1)] rfl

/-- Claim C10 counterexample: `lcm` applied to the singleton list `[0]` does
not return an integer; it divides by `gcd(0, 0) = 0` and raises
`ZeroDivisionError` (modelled by `none`). -/
theorem C10_counterexample : lcm [0] = none ∧ ∀ m : Int, lcm [0] ≠ some m := by
  refine ⟨lcm_zero_arg, ?_⟩
  intro m h
  rw [lcm_zero_arg] at h
  cases h

/-- Claim C10 (amended): the inner Euclidean loop always reaches `b == 0`, so
`gcd` terminates and returns an integer on every argument list (zeros and
negatives included); `lcm` terminates and returns an integer on every list of
non-zero arguments, but raises `ZeroDivisionError` on `lcm(0)`. -/
theorem C10_termination :
    (∀ a b : Int, ∃ steps, (euclidIter a b steps).2 = 0 ∧
      euclid a b = (euclidIter a b steps).1) ∧
    (∀ L : List Int, (∀ x ∈ L, x ≠ 0) → ∃ m, lcm L = some m) ∧
    lcm [0] = none := by
  refine ⟨?_, ?_, lcm_zero_arg⟩
  · intro a b
    exact euclid_terminates b.natAbs a b rfl
  · intro L hL
    obtain ⟨m, hm, _⟩ := lcm_spec L hL
    exact ⟨m, hm⟩

/-- Claim C10 witness: the loop for `gcd(18, -12)` reaches `b = 0`, and `lcm`
succeeds on the non-zero list `[2, 3]`. -/
theorem C10_termination_witness :
    (∃ steps, (euclidIter 18 (-12) steps).2 = 0 ∧
      euclid 18 (-12) = (euclidIter 18 (-12) steps).1) ∧
    ((∀ x ∈ [(2 : Int), 3], x ≠ 0) ∧ ∃ m, lcm [(2 : Int), 3] = some m) :=
  ⟨C10_termination.1 18 (-12), by decide, C10_termination.2.1 [2, 3] (by decide)⟩

end Butcher
